import Mathlib

/-!
Verification of the decode-ways repository (`src/main.go`).

The Go program counts decodings of a digit string under the mapping
A=1 … Z=26 using a cluster/Fibonacci algorithm.  We embed the two source
functions shallowly:

* `fib` (the memoised Fibonacci with global cache `f`, `maxFib`) becomes a
  state-passing function on `FibState`; a `none` result models a Go panic
  (out-of-bounds slice index).
* `getPossibleCombinations` becomes a pure function on byte lists
  (`getPossibleCombinations`, using the mathematical Fibonacci `fibSpec`)
  and a state-passing variant (`getPossibleCombinationsSt`) that threads
  the cache exactly as the Go code does.  `none` models the panic incurred
  by reading `p[0]` of an empty slice.

Bytes are modelled as `Nat` (Go `byte` values), arbitrary-precision
`big.Int` values as `Int`.
-/

namespace DecodeWays

/-- Validation errors of `getPossibleCombinations` in `src/main.go`:
`leadingZero` = "string starts with 0", `nonDigitStart` = "string starts
with non-digit character", `nonDigitAt i` = "encountered non-digit
character at pos. i" (i is 0-indexed in the remainder `p[1:]`), and
`invalidZero a i` = "encountered 0 which can not be attached to a at
pos. i". -/
inductive DecodeError where
  | leadingZero : DecodeError
  | nonDigitStart : DecodeError
  | nonDigitAt : Nat → DecodeError
  | invalidZero : Nat → Nat → DecodeError
deriving DecidableEq, Repr

instance {ε α : Type} [DecidableEq ε] [DecidableEq α] : DecidableEq (Except ε α) := fun x y =>
  match x, y with
  | Except.ok a, Except.ok b =>
    if h : a = b then Decidable.isTrue (by rw [h])
    else Decidable.isFalse (by intro hh; cases hh; exact h rfl)
  | Except.error a, Except.error b =>
    if h : a = b then Decidable.isTrue (by rw [h])
    else Decidable.isFalse (by intro hh; cases hh; exact h rfl)
  | Except.ok _, Except.error _ => Decidable.isFalse (by intro hh; cases hh)
  | Except.error _, Except.ok _ => Decidable.isFalse (by intro hh; cases hh)

/-- Mathematical Fibonacci numbers in the 0-indexed convention
F(0)=0, F(1)=1, F(n+2)=F(n+1)+F(n), valued in `Int` (modelling
`big.Int`). -/
def fibSpec : Nat → Int
  | 0 => 0
  | 1 => 1
  | n + 2 => fibSpec (n + 1) + fibSpec n

/-- The ambiguous-pair test of `src/main.go` line 127:
`(a == 0x31 && b > 0x30) || (a == 0x32 && b > 0x30 && b <= 0x36)`,
i.e. the two-digit code is in 11–19 or 21–26. -/
def isAmbig (a b : Nat) : Bool :=
  decide ((a = 0x31 ∧ 0x30 < b) ∨ (a = 0x32 ∧ 0x30 < b ∧ b ≤ 0x36))

/-- The loop of `getPossibleCombinations` (lines 113–138 of
`src/main.go`) in pure form: `a` is the previous byte, `cs` the
`clusterSize` variable, `x` the running product, `i` the 0-indexed
position inside `p[1:]`.  On success it returns the final
`(a, clusterSize, x)` state so that the caller can perform the final
flush of lines 141–143. -/
def scan : Nat → List Nat → Nat → Int → Nat → Except DecodeError (Nat × Nat × Int)
  | a, [], cs, x, _ => Except.ok (a, cs, x)
  | a, b :: rest, cs, x, i =>
    if b < 0x30 ∨ 0x39 < b then Except.error (DecodeError.nonDigitAt i)
    else if b = 0x30 ∧ a ≠ 0x31 ∧ a ≠ 0x32 then Except.error (DecodeError.invalidZero a i)
    else if isAmbig a b then scan b rest (cs + 1) x (i + 1)
    else if 0 < cs then scan b rest 0 (x * fibSpec (cs + 2)) (i + 1)
    else scan b rest 0 x (i + 1)

/-- The final flush of `getPossibleCombinations` (lines 141–143): if the
string ended inside a cluster, multiply once more by
`fib(clusterSize + 2)`. -/
def finish : Except DecodeError (Nat × Nat × Int) → Except DecodeError Int
  | Except.error e => Except.error e
  | Except.ok (_, cs, x) => if 0 < cs then Except.ok (x * fibSpec (cs + 2)) else Except.ok x

/-- Pure embedding of `getPossibleCombinations` from `src/main.go`
(lines 100–146).  The result is `none` exactly when the Go code would
panic: it reads `p[0]` unconditionally, so the empty slice gives an
out-of-bounds access.  Otherwise it is `some` of either a validation
error or the computed count. -/
def getPossibleCombinations (p : List Nat) : Option (Except DecodeError Int) :=
  match p with
  | [] => none
  | a :: rest =>
    if a = 0x30 then some (Except.error DecodeError.leadingZero)
    else if a < 0x31 ∨ 0x39 < a then some (Except.error DecodeError.nonDigitStart)
    else some (finish (scan a rest 0 1 0))

/-- Number of distinct decodings of a digit string under the mapping
A=1 … Z=26, as demanded by the repository's problem statement
(`TASK.md`): the number of ways to split the byte string into tokens,
each token being the decimal representation of a number in 1..26 ("1"
through "9" as single digits, "10" through "26" as pairs). -/
def numDecodings : List Nat → Nat
  | [] => 1
  | [c] => if 0x31 ≤ c ∧ c ≤ 0x39 then 1 else 0
  | c :: d :: rest =>
    (if 0x31 ≤ c ∧ c ≤ 0x39 then numDecodings (d :: rest) else 0) +
    (if (c = 0x31 ∧ 0x30 ≤ d ∧ d ≤ 0x39) ∨ (c = 0x32 ∧ 0x30 ≤ d ∧ d ≤ 0x36)
      then numDecodings rest else 0)

/-- The global Fibonacci cache of `src/main.go`: the slice
`f []*big.Int` and the counter `maxFib uint64`. -/
structure FibState where
  f : List Int
  maxFib : Nat
deriving DecidableEq, Repr

/-- The extension loop of `fib` (lines 68–72 of `src/main.go`):
`for ; maxFib <= n; maxFib++ { f = append(f, f[maxFib-1]+f[maxFib-2]) }`.
Since `maxFib` increases by one each iteration, the loop runs exactly
`n + 1 - maxFib` times; the fuel argument is that count.  A `none`
result models a Go panic on an out-of-bounds slice index. -/
def fibLoop : Nat → List Int → Nat → Option (List Int × Nat)
  | 0, fl, m => some (fl, m)
  | k + 1, fl, m =>
    match fl[m - 1]?, fl[m - 2]? with
    | some a, some b => fibLoop k (fl ++ [a + b]) (m + 1)
    | _, _ => none

/-- Embedding of `fib` from `src/main.go` (lines 66–74), explicitly
threading the global cache: extend the table while `maxFib ≤ n`, then
return `f[n]`.  `none` models a panic (out-of-bounds index). -/
def fib (n : Nat) (s : FibState) : Option (Int × FibState) :=
  match fibLoop (n + 1 - s.maxFib) s.f s.maxFib with
  | some (fl, m) =>
    match fl[n]? with
    | some v => some (v, ⟨fl, m⟩)
    | none => none
  | none => none

/-- The initial cache state of `src/main.go` (lines 47–51):
`f = [0, 1]`, `maxFib = 2`. -/
def initState : FibState := ⟨[0, 1], 2⟩

/-- Cache states reachable from the initial state by any sequence of
`fib` calls (the only code that mutates `f` or `maxFib`). -/
inductive Reaches : FibState → Prop where
  | init : Reaches initState
  | step {s : FibState} {n : Nat} {v : Int} {s' : FibState} :
      Reaches s → fib n s = some (v, s') → Reaches s'

/-- Well-formedness of the cache: the table is exactly the first
`maxFib` Fibonacci numbers and holds at least the two seed entries. -/
def WFfib (s : FibState) : Prop :=
  2 ≤ s.maxFib ∧ s.f = (List.range s.maxFib).map fibSpec

/-- State-passing form of the loop of `getPossibleCombinations`,
threading the Fibonacci cache through the `fib` call performed at each
cluster flush (line 133 of `src/main.go`).  `none` models a panic
inside `fib`. -/
def scanSt : Nat → List Nat → Nat → Int → Nat → FibState →
    Option (Except DecodeError (Nat × Nat × Int) × FibState)
  | a, [], cs, x, _, st => some (Except.ok (a, cs, x), st)
  | a, b :: rest, cs, x, i, st =>
    if b < 0x30 ∨ 0x39 < b then some (Except.error (DecodeError.nonDigitAt i), st)
    else if b = 0x30 ∧ a ≠ 0x31 ∧ a ≠ 0x32 then
      some (Except.error (DecodeError.invalidZero a i), st)
    else if isAmbig a b then scanSt b rest (cs + 1) x (i + 1) st
    else if 0 < cs then
      match fib (cs + 2) st with
      | some (v, st') => scanSt b rest 0 (x * v) (i + 1) st'
      | none => none
    else scanSt b rest 0 x (i + 1) st

/-- State-passing embedding of `getPossibleCombinations` (lines 100–146
of `src/main.go`), threading the shared Fibonacci cache exactly as the
Go code does.  `none` models a panic: reading `p[0]` of an empty slice,
or an out-of-bounds access inside `fib`. -/
def getPossibleCombinationsSt (p : List Nat) (st : FibState) :
    Option (Except DecodeError Int × FibState) :=
  match p with
  | [] => none
  | a :: rest =>
    if a = 0x30 then some (Except.error DecodeError.leadingZero, st)
    else if a < 0x31 ∨ 0x39 < a then some (Except.error DecodeError.nonDigitStart, st)
    else
      match scanSt a rest 0 1 0 st with
      | some (Except.ok (_, cs, x), st') =>
        if 0 < cs then
          match fib (cs + 2) st' with
          | some (v, st'') => some (Except.ok (x * v), st'')
          | none => none
        else some (Except.ok x, st')
      | some (Except.error e, st') => some (Except.error e, st')
      | none => none

/-- Spec-side validity of the bytes after the first one, written from
the specification's validation rules: every later byte is an ASCII
digit, and every later `'0'` is preceded by `'1'` or `'2'`. -/
def laterOKB : Nat → List Nat → Bool
  | _, [] => true
  | a, b :: rest =>
    decide (0x30 ≤ b ∧ b ≤ 0x39) && decide (b = 0x30 → a = 0x31 ∨ a = 0x32) && laterOKB b rest

/-- Spec-side validity of a whole input, written from the
specification: non-empty, first byte in `'1'..'9'`, and the remainder
satisfies `laterOKB`. -/
def validB : List Nat → Bool
  | [] => false
  | a :: rest => decide (0x31 ≤ a ∧ a ≤ 0x39) && laterOKB a rest

/-- Spec-side first violation among the bytes after the first one, in
left-to-right order, written from the specification: a non-digit byte
at 0-indexed position `i` of the remainder gives `nonDigitAt i`; a
`'0'` after a digit other than `'1'`/`'2'` gives `invalidZero a i`. -/
def scanErr : Nat → List Nat → Nat → Option DecodeError
  | _, [], _ => none
  | a, b :: rest, i =>
    if b < 0x30 ∨ 0x39 < b then some (DecodeError.nonDigitAt i)
    else if b = 0x30 ∧ a ≠ 0x31 ∧ a ≠ 0x32 then some (DecodeError.invalidZero a i)
    else scanErr b rest (i + 1)

/-- Spec-side first violation of a non-empty input, written from the
specification: a leading `'0'` gives `leadingZero`, a non-digit first
byte gives `nonDigitStart`, otherwise the first violation in the
remainder (if any). -/
def firstErrSpec : List Nat → Option DecodeError
  | [] => none
  | a :: rest =>
    if a = 0x30 then some DecodeError.leadingZero
    else if a < 0x30 ∨ 0x39 < a then some DecodeError.nonDigitStart
    else scanErr a rest 0

example : fib 6 initState = some (8, ⟨[0, 1, 1, 2, 3, 5, 8], 7⟩) := by decide
example : fib 1 initState = some (1, initState) := by decide

lemma fibSpec_rec (n : Nat) : fibSpec (n + 2) = fibSpec (n + 1) + fibSpec n := rfl

lemma range_map_fibSpec_getElem {m i : Nat} (h : i < m) :
    ((List.range m).map fibSpec)[i]? = some (fibSpec i) := by
  rw [List.getElem?_map, List.getElem?_range h]
  rfl

lemma range_map_fibSpec_snoc (m : Nat) (hm : 2 ≤ m) :
    (List.range m).map fibSpec ++ [fibSpec (m - 1) + fibSpec (m - 2)] =
      (List.range (m + 1)).map fibSpec := by
  obtain ⟨j, rfl⟩ : ∃ j, m = j + 2 := ⟨m - 2, by omega⟩
  have h1 : j + 2 - 1 = j + 1 := by omega
  have h2 : j + 2 - 2 = j := by omega
  rw [h1, h2, ← fibSpec_rec]
  have h3 : List.range (j + 2 + 1) = List.range (j + 2) ++ [j + 2] := List.range_succ (j + 2)
  rw [h3, List.map_append, List.map_singleton]

lemma fibLoop_spec : ∀ (k m : Nat), 2 ≤ m →
    fibLoop k ((List.range m).map fibSpec) m =
      some ((List.range (m + k)).map fibSpec, m + k)
  | 0, m, _ => rfl
  | k + 1, m, hm => by
    have h1 : ((List.range m).map fibSpec)[m - 1]? = some (fibSpec (m - 1)) :=
      range_map_fibSpec_getElem (by omega)
    have h2 : ((List.range m).map fibSpec)[m - 2]? = some (fibSpec (m - 2)) :=
      range_map_fibSpec_getElem (by omega)
    have hrec := fibLoop_spec k (m + 1) (by omega)
    rw [← range_map_fibSpec_snoc m hm] at hrec
    have h3 : m + 1 + k = m + (k + 1) := by omega
    rw [h3] at hrec
    simp only [fibLoop, h1, h2, hrec]

/-- On a well-formed cache, `fib n` returns the mathematical `fibSpec n`
and the canonically extended cache. -/
lemma fib_WF {s : FibState} (n : Nat) (h : WFfib s) :
    fib n s = some (fibSpec n,
      ⟨(List.range (max s.maxFib (n + 1))).map fibSpec, max s.maxFib (n + 1)⟩) := by
  obtain ⟨h2, hf⟩ := h
  have hloop := fibLoop_spec (n + 1 - s.maxFib) s.maxFib h2
  have hmax : s.maxFib + (n + 1 - s.maxFib) = max s.maxFib (n + 1) := by omega
  rw [hmax] at hloop
  have hn : ((List.range (max s.maxFib (n + 1))).map fibSpec)[n]? = some (fibSpec n) :=
    range_map_fibSpec_getElem (by omega)
  rw [fib, hf, hloop]
  simp only [hn]

lemma WFfib_init : WFfib initState := by
  constructor
  · exact Nat.le_refl 2
  · decide

lemma reaches_WF {s : FibState} (h : Reaches s) : WFfib s := by
  induction h with
  | init => exact WFfib_init
  | step hr hfib ih =>
    rename_i s n v s'
    rw [fib_WF n ih] at hfib
    obtain ⟨ih2, _⟩ := ih
    cases hfib
    refine ⟨?_, rfl⟩
    show 2 ≤ max s.maxFib (n + 1)
    omega

/-- On any reachable cache state, `fib n` succeeds, returns `fibSpec n`,
and leaves a reachable state. -/
lemma fib_reaches {s : FibState} (n : Nat) (h : Reaches s) :
    ∃ s', fib n s = some (fibSpec n, s') ∧ Reaches s' := by
  have hw := fib_WF n (reaches_WF h)
  exact ⟨_, hw, Reaches.step h hw⟩

/-- A `fib` call with `n` below the frontier runs zero loop iterations
and returns the cached entry with the state unchanged. -/
lemma fib_frontier {s : FibState} {n : Nat} (h : WFfib s) (hn : n < s.maxFib) :
    fib n s = some (fibSpec n, s) := by
  obtain ⟨h2, hf⟩ := h
  have h0 : n + 1 - s.maxFib = 0 := by omega
  rw [fib, h0]
  have hn' : s.f[n]? = some (fibSpec n) := by
    rw [hf]
    exact range_map_fibSpec_getElem (by omega)
  simp only [fibLoop, hn']

lemma fib_take {s : FibState} {n : Nat} {v : Int} {s' : FibState} (h : WFfib s)
    (he : fib n s = some (v, s')) : s'.f.take s.f.length = s.f := by
  have hw := fib_WF n h
  rw [hw] at he
  obtain ⟨h2, hf⟩ := h
  cases he
  have hm : max s.maxFib (n + 1) = s.maxFib + (max s.maxFib (n + 1) - s.maxFib) := by omega
  show ((List.range (max s.maxFib (n + 1))).map fibSpec).take s.f.length = s.f
  rw [hm, List.range_add, List.map_append, hf]
  exact List.take_left _ _

/-- C3: `fib n` is total (never fails) for every index `n ≥ 0` and
returns the nth Fibonacci number in the 0-indexed convention F(0)=0,
F(1)=1, F(i)=F(i-1)+F(i-2) (which is the definition of `fibSpec`),
regardless of the cache state it is called in — i.e. in every cache
state reachable by any sequence of `fib` calls. -/
theorem fib_total_correct (n : Nat) (s : FibState) (h : Reaches s) :
    (fib n s).map Prod.fst = some (fibSpec n) := by
  obtain ⟨s', hs, _⟩ := fib_reaches n h
  rw [hs, Option.map]

theorem fib_total_correct_witness :
    (fib 10 initState).map Prod.fst = some (fibSpec 10) ∧ fibSpec 10 = 55 :=
  ⟨fib_total_correct 10 initState Reaches.init, by decide⟩

/-- C4: in every cache state reachable by any sequence of `fib` calls,
the table satisfies `f[0] = 0`, `f[1] = 1` and
`f[i] = f[i-1] + f[i-2]` for all `2 ≤ i <` length; moreover every `fib`
call leaves the existing entries unchanged and only appends (the old
table is the prefix of the new one), and a call with `n` below the
current frontier `maxFib` appends nothing (the state is unchanged). -/
theorem fib_table_invariant (s : FibState) (h : Reaches s) :
    (s.f[0]? = some 0 ∧ s.f[1]? = some 1 ∧
      ∀ i, i < s.f.length → 2 ≤ i →
        s.f[i]? = some (s.f.getD (i - 1) 0 + s.f.getD (i - 2) 0)) ∧
    (∀ n v s', fib n s = some (v, s') →
      s'.f.take s.f.length = s.f ∧ (n < s.maxFib → s' = s)) := by
  have hw := reaches_WF h
  obtain ⟨h2, hf⟩ := hw
  have hlen : s.f.length = s.maxFib := by rw [hf, List.length_map, List.length_range]
  refine ⟨⟨?_, ?_, ?_⟩, ?_⟩
  · rw [hf]
    exact range_map_fibSpec_getElem (by omega)
  · rw [hf]
    exact range_map_fibSpec_getElem (by omega)
  · intro i hi h2i
    have hgd : ∀ j, j < s.maxFib → s.f.getD j 0 = fibSpec j := by
      intro j hj
      rw [List.getD_eq_getElem?_getD, hf, range_map_fibSpec_getElem hj, Option.getD_some]
    rw [hlen] at hi
    rw [hgd (i - 1) (by omega), hgd (i - 2) (by omega), hf, range_map_fibSpec_getElem hi]
    obtain ⟨j, rfl⟩ : ∃ j, i = j + 2 := ⟨i - 2, by omega⟩
    have e1 : j + 2 - 1 = j + 1 := by omega
    have e2 : j + 2 - 2 = j := by omega
    rw [e1, e2, fibSpec_rec]
  · intro n v s' he
    refine ⟨fib_take ⟨h2, hf⟩ he, ?_⟩
    intro hn
    rw [fib_frontier ⟨h2, hf⟩ hn] at he
    cases he
    rfl

theorem fib_table_invariant_witness :
    (⟨[0, 1, 1, 2, 3, 5], 6⟩ : FibState).f[4]? =
      some ((⟨[0, 1, 1, 2, 3, 5], 6⟩ : FibState).f.getD 3 0 +
        (⟨[0, 1, 1, 2, 3, 5], 6⟩ : FibState).f.getD 2 0) ∧
    (⟨[0, 1, 1, 2, 3, 5], 6⟩ : FibState).f.take initState.f.length = initState.f := by
  have hr5 : fib 5 initState = some (5, ⟨[0, 1, 1, 2, 3, 5], 6⟩) := by decide
  exact ⟨(fib_table_invariant _ (Reaches.step Reaches.init hr5)).1.2.2 4 (by decide) (by decide),
    ((fib_table_invariant initState Reaches.init).2 5 5 _ hr5).1⟩

lemma scan_error_iff : ∀ (u : List Nat) (a cs : Nat) (x : Int) (i : Nat) (e : DecodeError),
    scan a u cs x i = Except.error e ↔ scanErr a u i = some e := by
  intro u
  induction u with
  | nil =>
    intro a cs x i e
    simp [scan, scanErr]
  | cons b rest ih =>
    intro a cs x i e
    by_cases h1 : b < 0x30 ∨ 0x39 < b
    · simp [scan, scanErr, h1]
    · by_cases h2 : b = 0x30 ∧ a ≠ 0x31 ∧ a ≠ 0x32
      · simp [scan, scanErr, h1, h2]
      · by_cases h3 : isAmbig a b = true
        · simpa [scan, scanErr, h1, h2, h3] using ih b (cs + 1) x (i + 1) e
        · by_cases h4 : 0 < cs
          · simpa [scan, scanErr, h1, h2, h3, h4] using ih b 0 (x * fibSpec (cs + 2)) (i + 1) e
          · simpa [scan, scanErr, h1, h2, h3, h4] using ih b 0 x (i + 1) e

lemma scanErr_none_iff : ∀ (u : List Nat) (a i : Nat),
    scanErr a u i = none ↔ laterOKB a u = true := by
  intro u
  induction u with
  | nil =>
    intro a i
    simp [scanErr, laterOKB]
  | cons b rest ih =>
    intro a i
    by_cases h1 : b < 0x30 ∨ 0x39 < b
    · simp only [scanErr, laterOKB, if_pos h1]
      constructor
      · intro h
        exact absurd h (by simp)
      · intro h
        have : (0x30 ≤ b ∧ b ≤ 0x39) := by
          have := (Bool.and_eq_true _ _).mp h
          have := (Bool.and_eq_true _ _).mp this.1
          exact of_decide_eq_true this.1
        omega
    · by_cases h2 : b = 0x30 ∧ a ≠ 0x31 ∧ a ≠ 0x32
      · simp only [scanErr, laterOKB, if_neg h1, if_pos h2]
        constructor
        · intro h
          exact absurd h (by simp)
        · intro h
          have hb := (Bool.and_eq_true _ _).mp h
          have hz := of_decide_eq_true ((Bool.and_eq_true _ _).mp hb.1).2
          obtain ⟨hb0, ha1, ha2⟩ := h2
          rcases hz hb0 with h' | h' <;> [exact absurd h' ha1; exact absurd h' ha2]
      · simp only [scanErr, laterOKB, if_neg h1, if_neg h2]
        rw [ih b (i + 1)]
        constructor
        · intro h
          have hd1 : decide (0x30 ≤ b ∧ b ≤ 0x39) = true := by
            apply decide_eq_true
            omega
          have hd2 : decide (b = 0x30 → a = 0x31 ∨ a = 0x32) = true := by
            apply decide_eq_true
            intro hb0
            by_contra hc
            push_neg at hc
            exact h2 ⟨hb0, hc.1, hc.2⟩
          rw [hd1, hd2, h]
          rfl
        · intro h
          exact ((Bool.and_eq_true _ _).mp h).2

lemma finish_ok (r : Nat × Nat × Int) : ∃ y, finish (Except.ok r) = Except.ok y := by
  obtain ⟨a, cs, x⟩ := r
  by_cases h : 0 < cs
  · exact ⟨x * fibSpec (cs + 2), by simp [finish, h]⟩
  · exact ⟨x, by simp [finish, h]⟩

lemma finish_error (e : DecodeError) : finish (Except.error e) = Except.error e := rfl

/-- C2: for every non-empty byte sequence, `getPossibleCombinations`
returns a count exactly when the input is valid (first byte in
`'1'..'9'`, later bytes digits, every later `'0'` preceded by `'1'` or
`'2'`), and returns an error exactly when the input is invalid, the
error being the first violation in left-to-right scan order with its
payload (leading zero / non-digit start for the first byte, non-digit
position or invalid-zero digit-and-position for later bytes); no count
accompanies an error. -/
theorem decode_error_iff (p : List Nat) (hp : p ≠ []) :
    ((∃ x, getPossibleCombinations p = some (Except.ok x)) ↔ validB p = true) ∧
    (∀ e, getPossibleCombinations p = some (Except.error e) ↔ firstErrSpec p = some e) := by
  obtain ⟨a, rest, rfl⟩ : ∃ a rest, p = a :: rest := by
    cases p with
    | nil => exact absurd rfl hp
    | cons a rest => exact ⟨a, rest, rfl⟩
  by_cases h0 : a = 0x30
  · subst h0
    refine ⟨by simp [getPossibleCombinations, validB], fun e => ?_⟩
    simp [getPossibleCombinations, firstErrSpec]
  · by_cases h1 : a < 0x31 ∨ 0x39 < a
    · refine ⟨?_, fun e => ?_⟩
      · simp only [getPossibleCombinations, if_neg h0, if_pos h1, validB]
        constructor
        · rintro ⟨x, hx⟩
          exact absurd hx (by simp)
        · intro h
          have := of_decide_eq_true ((Bool.and_eq_true _ _).mp h).1
          omega
      · have h1' : a < 0x30 ∨ 0x39 < a := by omega
        simp [getPossibleCombinations, firstErrSpec, h0, h1, h1']
    · have hgpc : getPossibleCombinations (a :: rest) = some (finish (scan a rest 0 1 0)) := by
        simp [getPossibleCombinations, h0, h1]
      have hfes : firstErrSpec (a :: rest) = scanErr a rest 0 := by
        have h1' : ¬(a < 0x30 ∨ 0x39 < a) := by omega
        simp [firstErrSpec, h0, h1']
      have hvb : validB (a :: rest) = laterOKB a rest := by
        have ha : decide (0x31 ≤ a ∧ a ≤ 0x39) = true := decide_eq_true (by omega)
        simp [validB, ha]
      rw [hgpc, hfes, hvb]
      refine ⟨?_, fun e => ?_⟩
      · cases hscan : scan a rest 0 1 0 with
        | error e =>
          rw [finish_error]
          constructor
          · rintro ⟨x, hx⟩
            exact absurd hx (by simp)
          · intro h
            have hnone : scanErr a rest 0 = none := (scanErr_none_iff rest a 0).mpr h
            have := (scan_error_iff rest a 0 1 0 e).mp hscan
            rw [this] at hnone
            exact absurd hnone (by simp)
        | ok r =>
          obtain ⟨y, hy⟩ := finish_ok r
          rw [hy]
          constructor
          · intro _
            rw [← scanErr_none_iff rest a 0]
            cases hse : scanErr a rest 0 with
            | none => rfl
            | some e =>
              have := (scan_error_iff rest a 0 1 0 e).mpr hse
              rw [this] at hscan
              exact absurd hscan (by simp)
          · intro _
            exact ⟨y, rfl⟩
      · cases hscan : scan a rest 0 1 0 with
        | error e' =>
          rw [finish_error]
          constructor
          · intro h
            have he : e' = e := by
              have := Option.some.inj h
              exact (Except.error.inj this)
            subst he
            exact (scan_error_iff rest a 0 1 0 e').mp hscan
          · intro h
            have := (scan_error_iff rest a 0 1 0 e).mpr h
            rw [this] at hscan
            have he : e = e' := Except.error.inj hscan
            rw [← he]
        | ok r =>
          obtain ⟨y, hy⟩ := finish_ok r
          rw [hy]
          constructor
          · intro h
            exact absurd h (by simp)
          · intro h
            have := (scan_error_iff rest a 0 1 0 e).mpr h
            rw [this] at hscan
            exact absurd hscan (by simp)

theorem decode_error_iff_witness :
    getPossibleCombinations [0x33, 0x30] =
      some (Except.error (DecodeError.invalidZero 0x33 0)) :=
  ((decode_error_iff [0x33, 0x30] (by simp)).2 (DecodeError.invalidZero 0x33 0)).mpr (by decide)

lemma scan_append_ok : ∀ (u : List Nat) (v : List Nat) (a cs : Nat) (x : Int) (i : Nat)
    (a' cs' : Nat) (x' : Int), scan a u cs x i = Except.ok (a', cs', x') →
    scan a (u ++ v) cs x i = scan a' v cs' x' (i + u.length) := by
  intro u
  induction u with
  | nil =>
    intro v a cs x i a' cs' x' h
    obtain ⟨rfl, rfl, rfl⟩ : a = a' ∧ cs = cs' ∧ x = x' := by
      have h' := Except.ok.inj h
      refine ⟨?_, ?_, ?_⟩ <;> [exact congrArg Prod.fst h';
        exact congrArg (fun r => r.2.1) h'; exact congrArg (fun r => r.2.2) h']
    simp
  | cons b rest ih =>
    intro v a cs x i a' cs' x' h
    by_cases h1 : b < 0x30 ∨ 0x39 < b
    · rw [scan, if_pos h1] at h
      exact absurd h (by simp)
    · by_cases h2 : b = 0x30 ∧ a ≠ 0x31 ∧ a ≠ 0x32
      · rw [scan, if_neg h1, if_pos h2] at h
        exact absurd h (by simp)
      · have hlen : i + (b :: rest).length = (i + 1) + rest.length := by
          simp [List.length_cons]
          omega
        by_cases h3 : isAmbig a b = true
        · rw [scan, if_neg h1, if_neg h2, if_pos h3] at h
          show scan a (b :: (rest ++ v)) cs x i = _
          rw [scan, if_neg h1, if_neg h2, if_pos h3, hlen]
          exact ih v b (cs + 1) x (i + 1) a' cs' x' h
        · by_cases h4 : 0 < cs
          · rw [scan, if_neg h1, if_neg h2, if_neg h3, if_pos h4] at h
            show scan a (b :: (rest ++ v)) cs x i = _
            rw [scan, if_neg h1, if_neg h2, if_neg h3, if_pos h4, hlen]
            exact ih v b 0 (x * fibSpec (cs + 2)) (i + 1) a' cs' x' h
          · rw [scan, if_neg h1, if_neg h2, if_neg h3, if_neg h4] at h
            show scan a (b :: (rest ++ v)) cs x i = _
            rw [scan, if_neg h1, if_neg h2, if_neg h3, if_neg h4, hlen]
            exact ih v b 0 x (i + 1) a' cs' x' h

lemma scan_mul_ok : ∀ (u : List Nat) (a cs : Nat) (x y : Int) (i : Nat)
    (a' cs' : Nat) (y' : Int), scan a u cs y i = Except.ok (a', cs', y') →
    scan a u cs (x * y) i = Except.ok (a', cs', x * y') := by
  intro u
  induction u with
  | nil =>
    intro a cs x y i a' cs' y' h
    have h' := Except.ok.inj h
    obtain ⟨rfl, rfl, rfl⟩ : a = a' ∧ cs = cs' ∧ y = y' :=
      ⟨congrArg Prod.fst h', congrArg (fun r => r.2.1) h', congrArg (fun r => r.2.2) h'⟩
    rfl
  | cons b rest ih =>
    intro a cs x y i a' cs' y' h
    by_cases h1 : b < 0x30 ∨ 0x39 < b
    · rw [scan, if_pos h1] at h
      exact absurd h (by simp)
    · by_cases h2 : b = 0x30 ∧ a ≠ 0x31 ∧ a ≠ 0x32
      · rw [scan, if_neg h1, if_pos h2] at h
        exact absurd h (by simp)
      · by_cases h3 : isAmbig a b = true
        · rw [scan, if_neg h1, if_neg h2, if_pos h3] at h
          rw [scan, if_neg h1, if_neg h2, if_pos h3]
          exact ih b (cs + 1) x y (i + 1) a' cs' y' h
        · by_cases h4 : 0 < cs
          · rw [scan, if_neg h1, if_neg h2, if_neg h3, if_pos h4] at h
            rw [scan, if_neg h1, if_neg h2, if_neg h3, if_pos h4, mul_assoc]
            exact ih b 0 x (y * fibSpec (cs + 2)) (i + 1) a' cs' y' h
          · rw [scan, if_neg h1, if_neg h2, if_neg h3, if_neg h4] at h
            rw [scan, if_neg h1, if_neg h2, if_neg h3, if_neg h4]
            exact ih b 0 x y (i + 1) a' cs' y' h

lemma scan_shift_ok : ∀ (u : List Nat) (a cs : Nat) (x : Int) (i j : Nat)
    (r : Nat × Nat × Int), scan a u cs x i = Except.ok r → scan a u cs x j = Except.ok r := by
  intro u
  induction u with
  | nil =>
    intro a cs x i j r h
    exact h
  | cons b rest ih =>
    intro a cs x i j r h
    by_cases h1 : b < 0x30 ∨ 0x39 < b
    · rw [scan, if_pos h1] at h
      exact absurd h (by simp)
    · by_cases h2 : b = 0x30 ∧ a ≠ 0x31 ∧ a ≠ 0x32
      · rw [scan, if_neg h1, if_pos h2] at h
        exact absurd h (by simp)
      · by_cases h3 : isAmbig a b = true
        · rw [scan, if_neg h1, if_neg h2, if_pos h3] at h ⊢
          exact ih b (cs + 1) x (i + 1) (j + 1) r h
        · by_cases h4 : 0 < cs
          · rw [scan, if_neg h1, if_neg h2, if_neg h3, if_pos h4] at h ⊢
            exact ih b 0 (x * fibSpec (cs + 2)) (i + 1) (j + 1) r h
          · rw [scan, if_neg h1, if_neg h2, if_neg h3, if_neg h4] at h ⊢
            exact ih b 0 x (i + 1) (j + 1) r h

lemma scan_getLastD : ∀ (u : List Nat) (a cs : Nat) (x : Int) (i : Nat)
    (a' cs' : Nat) (x' : Int), scan a u cs x i = Except.ok (a', cs', x') →
    a' = u.getLastD a := by
  intro u
  induction u with
  | nil =>
    intro a cs x i a' cs' x' h
    exact (congrArg Prod.fst (Except.ok.inj h)).symm
  | cons b rest ih =>
    intro a cs x i a' cs' x' h
    rw [List.getLastD_cons]
    by_cases h1 : b < 0x30 ∨ 0x39 < b
    · rw [scan, if_pos h1] at h
      exact absurd h (by simp)
    · by_cases h2 : b = 0x30 ∧ a ≠ 0x31 ∧ a ≠ 0x32
      · rw [scan, if_neg h1, if_pos h2] at h
        exact absurd h (by simp)
      · by_cases h3 : isAmbig a b = true
        · rw [scan, if_neg h1, if_neg h2, if_pos h3] at h
          exact ih b (cs + 1) x (i + 1) a' cs' x' h
        · by_cases h4 : 0 < cs
          · rw [scan, if_neg h1, if_neg h2, if_neg h3, if_pos h4] at h
            exact ih b 0 (x * fibSpec (cs + 2)) (i + 1) a' cs' x' h
          · rw [scan, if_neg h1, if_neg h2, if_neg h3, if_neg h4] at h
            exact ih b 0 x (i + 1) a' cs' x' h

lemma cons_getLast? (a : Nat) (l : List Nat) : (a :: l).getLast? = some (l.getLastD a) := by
  induction l generalizing a with
  | nil => rfl
  | cons b t ih =>
    rw [List.getLastD_cons]
    exact ih b

lemma gpc_eq_finish_scan {a : Nat} (rest : List Nat) (ha : 0x31 ≤ a ∧ a ≤ 0x39) :
    getPossibleCombinations (a :: rest) = some (finish (scan a rest 0 1 0)) := by
  have h0 : ¬(a = 0x30) := by omega
  have h1 : ¬(a < 0x31 ∨ 0x39 < a) := by omega
  simp [getPossibleCombinations, h0, h1]

lemma gpc_ok_inv {p : List Nat} {x : Int} (h : getPossibleCombinations p = some (Except.ok x)) :
    ∃ a rest, p = a :: rest ∧ (0x31 ≤ a ∧ a ≤ 0x39) ∧
      finish (scan a rest 0 1 0) = Except.ok x := by
  cases p with
  | nil => exact absurd h (by simp [getPossibleCombinations])
  | cons a rest =>
    by_cases h0 : a = 0x30
    · rw [getPossibleCombinations, if_pos h0] at h
      exact absurd (Option.some.inj h) (by simp)
    · by_cases h1 : a < 0x31 ∨ 0x39 < a
      · rw [getPossibleCombinations, if_neg h0, if_pos h1] at h
        exact absurd (Option.some.inj h) (by simp)
      · rw [getPossibleCombinations, if_neg h0, if_neg h1] at h
        exact ⟨a, rest, rfl, by omega, Option.some.inj h⟩

/-- C5: if `s` and `t` are each accepted by `getPossibleCombinations`
(hence individually valid) and the boundary pair (last byte of `s`,
first byte of `t`) is not ambiguous, then the count of the
concatenation `s ++ t` is the product of the two counts. -/
theorem count_multiplicative (s t : List Nat) (xs xt : Int) (ls ft : Nat)
    (hs : getPossibleCombinations s = some (Except.ok xs))
    (ht : getPossibleCombinations t = some (Except.ok xt))
    (hls : s.getLast? = some ls) (hft : t.head? = some ft)
    (hna : isAmbig ls ft = false) :
    getPossibleCombinations (s ++ t) = some (Except.ok (xs * xt)) := by
  obtain ⟨a, u, rfl, ha, hfs⟩ := gpc_ok_inv hs
  obtain ⟨b, v, rfl, hb, hfts⟩ := gpc_ok_inv ht
  have hftb : b = ft := Option.some.inj hft
  subst hftb
  have hlsa : ls = u.getLastD a := by
    rw [cons_getLast? a u] at hls
    exact (Option.some.inj hls).symm
  cases hscan : scan a u 0 1 0 with
  | error e =>
    rw [hscan, finish_error] at hfs
    exact absurd hfs (by simp)
  | ok r =>
    obtain ⟨a1, cs1, x1⟩ := r
    rw [hscan] at hfs
    have ha1 : a1 = u.getLastD a := scan_getLastD u a 0 1 0 a1 cs1 x1 hscan
    cases hscant : scan b v 0 1 0 with
    | error e =>
      rw [hscant, finish_error] at hfts
      exact absurd hfts (by simp)
    | ok rt =>
      obtain ⟨b1, cst, xt1⟩ := rt
      rw [hscant] at hfts
      have hcons : (a :: u) ++ (b :: v) = a :: (u ++ (b :: v)) := rfl
      rw [hcons, gpc_eq_finish_scan (u ++ (b :: v)) ha,
        scan_append_ok u (b :: v) a 0 1 0 a1 cs1 x1 hscan]
      have hd : ¬(b < 0x30 ∨ 0x39 < b) := by omega
      have hz : ¬(b = 0x30 ∧ a1 ≠ 0x31 ∧ a1 ≠ 0x32) := by
        intro hc
        exact absurd hc.1 (by omega)
      have hamb : ¬(isAmbig a1 b = true) := by
        rw [ha1, ← hlsa, hna]
        simp
      rw [scan, if_neg hd, if_neg hz, if_neg hamb]
      have harg : (if 0 < cs1 then scan b v 0 (x1 * fibSpec (cs1 + 2)) (0 + u.length + 1)
          else scan b v 0 x1 (0 + u.length + 1)) = scan b v 0 xs (0 + u.length + 1) := by
        by_cases hcs1 : 0 < cs1
        · rw [if_pos hcs1]
          have hxs : x1 * fibSpec (cs1 + 2) = xs := by simpa [finish, hcs1] using hfs
          rw [hxs]
        · rw [if_neg hcs1]
          have hxs : x1 = xs := by simpa [finish, hcs1] using hfs
          rw [hxs]
      rw [harg]
      have hmain : scan b v 0 xs (0 + u.length + 1) = Except.ok (b1, cst, xs * xt1) := by
        have hsh := scan_shift_ok v b 0 1 0 (0 + u.length + 1) (b1, cst, xt1) hscant
        have hm := scan_mul_ok v b 0 xs 1 (0 + u.length + 1) b1 cst xt1 hsh
        rwa [mul_one] at hm
      rw [hmain]
      by_cases hcst : 0 < cst
      · have hxt : xt1 * fibSpec (cst + 2) = xt := by simpa [finish, hcst] using hfts
        simp [finish, hcst, ← hxt, mul_assoc]
      · have hxt : xt1 = xt := by simpa [finish, hcst] using hfts
        simp [finish, hcst, hxt]

theorem count_multiplicative_witness :
    getPossibleCombinations ([0x32, 0x32, 0x36] ++ [0x32, 0x32, 0x36]) =
      some (Except.ok (3 * 3)) :=
  count_multiplicative [0x32, 0x32, 0x36] [0x32, 0x32, 0x36] 3 3 0x36 0x32
    (by decide) (by decide) (by decide) (by decide) (by decide)

lemma scan_ones : ∀ (m cs : Nat) (x : Int) (i : Nat),
    scan 0x31 (List.replicate m 0x31) cs x i = Except.ok (0x31, cs + m, x) := by
  intro m
  induction m with
  | zero =>
    intro cs x i
    rfl
  | succ m ih =>
    intro cs x i
    rw [List.replicate_succ, scan]
    have h1 : ¬((0x31 : Nat) < 0x30 ∨ (0x39 : Nat) < 0x31) := by omega
    have h2 : ¬((0x31 : Nat) = 0x30 ∧ (0x31 : Nat) ≠ 0x31 ∧ (0x31 : Nat) ≠ 0x32) := by omega
    have h3 : isAmbig 0x31 0x31 = true := by decide
    rw [if_neg h1, if_neg h2, if_pos h3, ih (cs + 1) x (i + 1)]
    have hc : cs + 1 + m = cs + (m + 1) := by omega
    rw [hc]

/-- C6: for every `n ≥ 1`, `getPossibleCombinations` applied to `n`
consecutive `'1'` bytes returns `fibSpec (n + 1)` (0-indexed convention
F(0)=0, F(1)=1); concretely "1" gives 1, "11" gives 2, "111" gives 3,
"1111" gives 5, "11111" gives 8. -/
theorem ones_count :
    (∀ n, 1 ≤ n → getPossibleCombinations (List.replicate n 0x31) =
      some (Except.ok (fibSpec (n + 1)))) ∧
    getPossibleCombinations [0x31] = some (Except.ok 1) ∧
    getPossibleCombinations [0x31, 0x31] = some (Except.ok 2) ∧
    getPossibleCombinations [0x31, 0x31, 0x31] = some (Except.ok 3) ∧
    getPossibleCombinations [0x31, 0x31, 0x31, 0x31] = some (Except.ok 5) ∧
    getPossibleCombinations [0x31, 0x31, 0x31, 0x31, 0x31] = some (Except.ok 8) := by
  refine ⟨?_, by decide, by decide, by decide, by decide, by decide⟩
  intro n hn
  obtain ⟨m, rfl⟩ : ∃ m, n = m + 1 := ⟨n - 1, by omega⟩
  rw [List.replicate_succ, gpc_eq_finish_scan (List.replicate m 0x31) (by omega),
    scan_ones m 0 1 0]
  by_cases hm : 0 < m
  · have h0m : 0 + m = m := by omega
    rw [h0m]
    simp only [finish, if_pos hm, one_mul]
  · have h0 : m = 0 := by omega
    subst h0
    decide

theorem ones_count_witness :
    getPossibleCombinations (List.replicate 4 0x31) = some (Except.ok (fibSpec 5)) :=
  ones_count.1 4 (by omega)

lemma scan_no_ambig : ∀ (u : List Nat) (a : Nat) (x : Int) (i : Nat),
    laterOKB a u = true → List.Chain' (fun p q => isAmbig p q = false) (a :: u) →
    scan a u 0 x i = Except.ok (u.getLastD a, 0, x) := by
  intro u
  induction u with
  | nil =>
    intro a x i _ _
    rfl
  | cons b rest ih =>
    intro a x i hl hc
    have hl' := (Bool.and_eq_true _ _).mp hl
    have hd : 0x30 ≤ b ∧ b ≤ 0x39 := of_decide_eq_true ((Bool.and_eq_true _ _).mp hl'.1).1
    have hz : b = 0x30 → a = 0x31 ∨ a = 0x32 :=
      of_decide_eq_true ((Bool.and_eq_true _ _).mp hl'.1).2
    have hchain := List.chain'_cons.mp hc
    have h1 : ¬(b < 0x30 ∨ 0x39 < b) := by omega
    have h2 : ¬(b = 0x30 ∧ a ≠ 0x31 ∧ a ≠ 0x32) := by
      intro hcon
      rcases hz hcon.1 with h' | h' <;> [exact hcon.2.1 h'; exact hcon.2.2 h']
    have h3 : ¬(isAmbig a b = true) := by
      rw [hchain.1]
      simp
    have h4 : ¬(0 < 0) := by omega
    rw [scan, if_neg h1, if_neg h2, if_neg h3, if_neg h4, List.getLastD_cons]
    exact ih b x (i + 1) hl'.2 hchain.2

/-- C7: every valid digit sequence in which no two adjacent digits form
an ambiguous pair (none in 11–19 or 21–26) is counted as exactly 1. -/
theorem no_ambig_count_one (p : List Nat) (hv : validB p = true)
    (hc : List.Chain' (fun a b => isAmbig a b = false) p) :
    getPossibleCombinations p = some (Except.ok 1) := by
  cases p with
  | nil => exact absurd hv (by simp [validB])
  | cons a rest =>
    have hv' := (Bool.and_eq_true _ _).mp hv
    have ha : 0x31 ≤ a ∧ a ≤ 0x39 := of_decide_eq_true hv'.1
    rw [gpc_eq_finish_scan rest ha, scan_no_ambig rest a 1 0 hv'.2 hc]
    rfl

theorem no_ambig_count_one_witness :
    getPossibleCombinations [0x33, 0x31, 0x30] = some (Except.ok 1) :=
  no_ambig_count_one [0x33, 0x31, 0x30] (by decide)
    (List.chain'_cons.mpr ⟨by decide, List.chain'_cons.mpr ⟨by decide, List.chain'_singleton _⟩⟩)

/-- C8: `getPossibleCombinations` returns 3 on "226", 3 on "111" (a
cluster running to the end of the string is still flushed), and
233 = fibSpec 13 on twelve consecutive '1' bytes. -/
theorem concrete_scenarios :
    getPossibleCombinations [0x32, 0x32, 0x36] = some (Except.ok 3) ∧
    getPossibleCombinations [0x31, 0x31, 0x31] = some (Except.ok 3) ∧
    getPossibleCombinations (List.replicate 12 0x31) = some (Except.ok 233) ∧
    fibSpec 13 = 233 := by
  refine ⟨by decide, by decide, by decide, by decide⟩

lemma scanSt_sim : ∀ (u : List Nat) (a cs : Nat) (x : Int) (i : Nat) (st : FibState),
    Reaches st →
    ∃ st', scanSt a u cs x i st = some (scan a u cs x i, st') ∧ Reaches st' := by
  intro u
  induction u with
  | nil =>
    intro a cs x i st h
    exact ⟨st, rfl, h⟩
  | cons b rest ih =>
    intro a cs x i st h
    by_cases h1 : b < 0x30 ∨ 0x39 < b
    · refine ⟨st, ?_, h⟩
      rw [scanSt, scan, if_pos h1, if_pos h1]
    · by_cases h2 : b = 0x30 ∧ a ≠ 0x31 ∧ a ≠ 0x32
      · refine ⟨st, ?_, h⟩
        rw [scanSt, scan, if_neg h1, if_pos h2, if_neg h1, if_pos h2]
      · by_cases h3 : isAmbig a b = true
        · obtain ⟨st', hs', hr'⟩ := ih b (cs + 1) x (i + 1) st h
          refine ⟨st', ?_, hr'⟩
          rw [scanSt, if_neg h1, if_neg h2, if_pos h3, scan, if_neg h1, if_neg h2, if_pos h3]
          exact hs'
        · by_cases h4 : 0 < cs
          · obtain ⟨st1, hfib, hr1⟩ := fib_reaches (cs + 2) h
            obtain ⟨st', hs', hr'⟩ := ih b 0 (x * fibSpec (cs + 2)) (i + 1) st1 hr1
            refine ⟨st', ?_, hr'⟩
            rw [scanSt, if_neg h1, if_neg h2, if_neg h3, if_pos h4]
            simp only [hfib]
            rw [scan, if_neg h1, if_neg h2, if_neg h3, if_pos h4]
            exact hs'
          · obtain ⟨st', hs', hr'⟩ := ih b 0 x (i + 1) st h
            refine ⟨st', ?_, hr'⟩
            rw [scanSt, if_neg h1, if_neg h2, if_neg h3, if_neg h4,
              scan, if_neg h1, if_neg h2, if_neg h3, if_neg h4]
            exact hs'

/-- The state-passing embedding never panics on a non-empty input, and
its value component is exactly the pure embedding's result. -/
lemma gpcSt_sim (p : List Nat) (st : FibState) (h : Reaches st) (hp : p ≠ []) :
    ∃ r st', getPossibleCombinationsSt p st = some (r, st') ∧
      getPossibleCombinations p = some r ∧ Reaches st' := by
  cases p with
  | nil => exact absurd rfl hp
  | cons a rest =>
    by_cases h0 : a = 0x30
    · refine ⟨Except.error DecodeError.leadingZero, st, ?_, ?_, h⟩
      · rw [getPossibleCombinationsSt, if_pos h0]
      · rw [getPossibleCombinations, if_pos h0]
    · by_cases h1 : a < 0x31 ∨ 0x39 < a
      · refine ⟨Except.error DecodeError.nonDigitStart, st, ?_, ?_, h⟩
        · rw [getPossibleCombinationsSt, if_neg h0, if_pos h1]
        · rw [getPossibleCombinations, if_neg h0, if_pos h1]
      · obtain ⟨st1, hs1, hr1⟩ := scanSt_sim rest a 0 1 0 st h
        cases hscan : scan a rest 0 1 0 with
        | error e =>
          rw [hscan] at hs1
          refine ⟨Except.error e, st1, ?_, ?_, hr1⟩
          · rw [getPossibleCombinationsSt, if_neg h0, if_neg h1]
            simp only [hs1]
          · rw [getPossibleCombinations, if_neg h0, if_neg h1, hscan, finish_error]
        | ok r =>
          obtain ⟨a1, cs1, x1⟩ := r
          rw [hscan] at hs1
          by_cases hcs : 0 < cs1
          · obtain ⟨st2, hfib2, hr2⟩ := fib_reaches (cs1 + 2) hr1
            refine ⟨Except.ok (x1 * fibSpec (cs1 + 2)), st2, ?_, ?_, hr2⟩
            · rw [getPossibleCombinationsSt, if_neg h0, if_neg h1]
              simp only [hs1, if_pos hcs, hfib2]
            · rw [getPossibleCombinations, if_neg h0, if_neg h1, hscan]
              simp [finish, hcs]
          · refine ⟨Except.ok x1, st1, ?_, ?_, hr1⟩
            · rw [getPossibleCombinationsSt, if_neg h0, if_neg h1]
              simp only [hs1, if_neg hcs]
            · rw [getPossibleCombinations, if_neg h0, if_neg h1, hscan]
              simp [finish, hcs]

/-- C9: the result of `getPossibleCombinationsSt` on a given byte
sequence does not depend on the Fibonacci cache state the call starts
from (for any two reachable cache states — in particular the state left
behind by an earlier call on the same input), so two successive calls
yield numerically identical results; the input list is taken by value
and cannot be mutated. -/
theorem deterministic_across_cache (p : List Nat) (s₁ s₂ : FibState)
    (r₁ r₂ : Except DecodeError Int) (s₁' s₂' : FibState)
    (h₁ : Reaches s₁) (h₂ : Reaches s₂)
    (e₁ : getPossibleCombinationsSt p s₁ = some (r₁, s₁'))
    (e₂ : getPossibleCombinationsSt p s₂ = some (r₂, s₂')) : r₁ = r₂ := by
  cases p with
  | nil =>
    rw [getPossibleCombinationsSt] at e₁
    exact absurd e₁ (by simp)
  | cons a rest =>
    obtain ⟨r, st', hst, hp, _⟩ := gpcSt_sim (a :: rest) s₁ h₁ (by simp)
    obtain ⟨r', st'', hst2, hp2, _⟩ := gpcSt_sim (a :: rest) s₂ h₂ (by simp)
    rw [hst] at e₁
    rw [hst2] at e₂
    have hr1 : r = r₁ := congrArg Prod.fst (Option.some.inj e₁)
    have hr2 : r' = r₂ := congrArg Prod.fst (Option.some.inj e₂)
    rw [hp] at hp2
    have : r = r' := Option.some.inj hp2
    rw [← hr1, ← hr2, this]

theorem deterministic_across_cache_witness :
    (Except.ok (2 : Int) : Except DecodeError Int) = Except.ok 2 :=
  deterministic_across_cache [0x31, 0x31] initState ⟨[0, 1, 1, 2], 4⟩
    (Except.ok 2) (Except.ok 2) ⟨[0, 1, 1, 2], 4⟩ ⟨[0, 1, 1, 2], 4⟩
    Reaches.init (Reaches.step Reaches.init (by decide : fib 3 initState = some (2, ⟨[0, 1, 1, 2], 4⟩)))
    (by decide) (by decide)

/-- C10: starting from any reachable cache state, the state-passing
embedding panics (returns `none`, modelling an out-of-bounds index)
exactly on the zero-length input: `getPossibleCombinations` reads
`p[0]` unconditionally, so the empty slice faults instead of producing
an `EmptyInput` validation error, while on every non-empty input every
index access is in bounds. -/
theorem index_access_safety (p : List Nat) (st : FibState) (h : Reaches st) :
    getPossibleCombinationsSt p st = none ↔ p = [] := by
  constructor
  · intro hn
    by_contra hne
    obtain ⟨r, st', hst, _, _⟩ := gpcSt_sim p st h hne
    rw [hst] at hn
    exact absurd hn (by simp)
  · rintro rfl
    rfl

theorem index_access_safety_witness :
    (getPossibleCombinationsSt [] initState = none ↔ ([] : List Nat) = []) ∧
    (getPossibleCombinationsSt [0x31, 0x30] initState = none ↔ ([0x31, 0x30] : List Nat) = []) :=
  ⟨index_access_safety [] initState Reaches.init,
    index_access_safety [0x31, 0x30] initState Reaches.init⟩

/-- C1 (code bug): on the valid input "110" the program returns 2 (the
cluster product `fibSpec 3` for the single ambiguous pair "11"), but
the number of distinct decodings of "110" under A=1 … Z=26 is 1 (only
`(1)(10)`): the trailing '0' forces the preceding '1' into the code 10,
which the cluster formula ignores.  So `getPossibleCombinations` does
not return the number of distinct decodings, contradicting the
program's own documentation and problem statement. -/
theorem cluster_formula_neq_decodings :
    getPossibleCombinations [0x31, 0x31, 0x30] = some (Except.ok 2) ∧
    numDecodings [0x31, 0x31, 0x30] = 1 ∧
    validB [0x31, 0x31, 0x30] = true := by
  refine ⟨by decide, by decide, by decide⟩

example : getPossibleCombinations [0x31, 0x32] = some (Except.ok 2) := by decide
example : getPossibleCombinations [0x32, 0x32, 0x36] = some (Except.ok 3) := by decide
example : getPossibleCombinations [0x31, 0x30] = some (Except.ok 1) := by decide
example : getPossibleCombinations [0x30] = some (Except.error DecodeError.leadingZero) := by decide
example : getPossibleCombinations [0x33, 0x30] =
    some (Except.error (DecodeError.invalidZero 0x33 0)) := by decide
example : getPossibleCombinations [0x31, 0x32, 0x61, 0x33] =
    some (Except.error (DecodeError.nonDigitAt 1)) := by decide
example : getPossibleCombinations (List.replicate 12 0x31) = some (Except.ok 233) := by decide
example : getPossibleCombinations [0x31, 0x31, 0x30] = some (Except.ok 2) := by decide
example : numDecodings [0x31, 0x31, 0x30] = 1 := by decide
example : numDecodings [0x32, 0x32, 0x36] = 3 := by decide

end DecodeWays
